import Mathlib

/-!
# Verification of the Kademlia routing table (`src/discovery/src/kademlia/routing_table.rs`)

A shallow embedding of the routing-table core: `Bucket` (a `VecDeque<Contact>`
modelled as a `List` whose back is the most-recently-seen end), `RoutingTable`
(a `HashMap<usize, Bucket>` modelled as an association list; every property
that could depend on iteration order is proved order-independent where the
specification claims it), and the distance-ordered closest-contact query
(`BTreeSet<ContactWithDistance>` modelled as a strictly sorted list with
ordered insertion).

Machine integers: `bucket_size` and `result_limit` are `u8` in the source and
are only ever widened (`as usize`) before comparison, so no arithmetic wraps;
they are modelled as `Nat`.
-/

/-- Modelled from the spec: `Contact` lives in `src/discovery/src/kademlia/contact.rs`,
which is not part of the sources. Per the spec (§3) a contact is an
(identifier, network address) pair with value equality; both components are
modelled as opaque naturals. -/
structure Contact where
  id : Nat
  addr : Nat
deriving DecidableEq, Repr

theorem contact_eq_iff {a b : Contact} : a = b ↔ a.id = b.id ∧ a.addr = b.addr := by
  cases a
  cases b
  simp

/-- Modelled from the spec: the total order on `Contact` (its derived `Ord` in the
missing `contact.rs`) used for tie-breaking, per the spec (§4.3, §4.1):
"a fixed total order over contacts (e.g., identifier then address ordering)". -/
def contactLt (a b : Contact) : Prop :=
  a.id < b.id ∨ (a.id = b.id ∧ a.addr < b.addr)

instance (a b : Contact) : Decidable (contactLt a b) := by
  unfold contactLt
  infer_instance

/-- Modelled from the spec: `log2_distance` lives in the missing `contact.rs`.
Per the spec (§3) it is the XOR-metric "index of the highest set bit" counted
from 1 — identical identifiers yield 0 and identifiers differing only in the
lowest bit yield 1, as pinned by the repository's own
`test_get_contacts_with_distance` (ids 2 and 3 share distance class 2 from 0,
ids 4..7 share class 3, ...). `bitLen` is the 1-based bit length, computed with
structural fuel so that it reduces by `decide`. -/
def bitLenAux (fuel n : Nat) : Nat :=
  match fuel with
  | 0 => 0
  | f + 1 => if n = 0 then 0 else bitLenAux f (n / 2) + 1

def bitLen (n : Nat) : Nat := bitLenAux n n

def log2_distance (a b : Nat) : Nat := bitLen (a ^^^ b)

/-- `struct ContactWithDistance { distance: usize, contact: Contact }` with its
derived lexicographic `Ord` (distance first, then contact). -/
structure ContactWithDistance where
  distance : Nat
  contact : Contact
deriving DecidableEq, Repr

theorem cwd_eq_iff {a b : ContactWithDistance} :
    a = b ↔ a.distance = b.distance ∧ a.contact = b.contact := by
  cases a
  cases b
  simp

/-- The derived `Ord` on `ContactWithDistance`: lexicographic on
(distance, contact). -/
def cwdLt (x y : ContactWithDistance) : Prop :=
  x.distance < y.distance ∨ (x.distance = y.distance ∧ contactLt x.contact y.contact)

instance (x y : ContactWithDistance) : Decidable (cwdLt x y) := by
  unfold cwdLt
  infer_instance

/-- `ContactWithDistance::new(contact, target)`. -/
def mkCWD (target : Nat) (c : Contact) : ContactWithDistance :=
  ⟨log2_distance c.id target, c⟩

/-- Ordered insertion into a strictly-sorted duplicate-free list: the model of
`BTreeSet::insert` for `ContactWithDistance`. -/
def insertSorted (x : ContactWithDistance) :
    List ContactWithDistance → List ContactWithDistance
  | [] => [x]
  | y :: ys =>
    if cwdLt x y then x :: y :: ys
    else if x = y then y :: ys
    else y :: insertSorted x ys

/-- Inserting every element of a list into an (initially empty) ordered set:
the fully naive, pruning-free candidate collection. -/
def sortedInsertAll (l : List ContactWithDistance) : List ContactWithDistance :=
  l.foldl (fun s x => insertSorted x s) []

/-- `struct Bucket { contacts: VecDeque<Contact>, bucket_size: u8 }`.
The front of the deque (list head) is the least-recently-seen contact. -/
structure Bucket where
  contacts : List Contact
  bucket_size : Nat
deriving DecidableEq, Repr

def Bucket.new (bs : Nat) : Bucket := ⟨[], bs⟩

/-- `Bucket::head_if_full`. -/
def Bucket.head_if_full (b : Bucket) : Option Contact :=
  if b.bucket_size < b.contacts.length then b.contacts.head? else none

def Bucket.is_empty (b : Bucket) : Bool := b.contacts.isEmpty

/-- `Bucket::contains`. -/
def Bucket.contains (b : Bucket) (c : Contact) : Bool := b.contacts.contains c

/-- `Bucket::conflicts`: some member shares `c`'s identifier under a different
address. -/
def Bucket.conflicts (b : Bucket) (c : Contact) : Bool :=
  b.contacts.any (fun old => old.id == c.id && old.addr != c.addr)

/-- `Bucket::remove_contact`: `retain(|old| old != contact)` then
`head_if_full()`. -/
def Bucket.remove_contact (b : Bucket) (c : Contact) : Bucket × Option Contact :=
  let b1 : Bucket := { b with contacts := b.contacts.filter (fun old => old != c) }
  (b1, b1.head_if_full)

/-- `Bucket::touch_contact`: remove any exact match, push to the back unless
the contact conflicts, and signal the front member when over capacity. -/
def Bucket.touch_contact (b : Bucket) (c : Contact) : Bucket × Option Contact :=
  let b1 : Bucket := { b with contacts := b.contacts.filter (fun old => old != c) }
  let b2 : Bucket := if b1.conflicts c then b1 else { b1 with contacts := b1.contacts ++ [c] }
  (b2, b2.head_if_full)

/-- `Bucket::remove_address`. -/
def Bucket.remove_address (b : Bucket) (a : Nat) : Bucket :=
  { b with contacts := b.contacts.filter (fun c => c.addr != a) }

/-- `struct RoutingTable`. `buckets: HashMap<usize, Bucket>` is modelled as an
association list with unique keys; iteration order is the list order, and the
claims about order-independence are proved over permutations of this list. -/
structure RoutingTable where
  local_id : Nat
  buckets : List (Nat × Bucket)
  bucket_size : Nat
deriving DecidableEq, Repr

/-- `RoutingTable::new`. -/
def RoutingTable.new (local_id bs : Nat) : RoutingTable := ⟨local_id, [], bs⟩

/-- `HashMap::get` on the association list. -/
def getBucket? (i : Nat) : List (Nat × Bucket) → Option Bucket
  | [] => none
  | p :: rest => if p.1 = i then some p.2 else getBucket? i rest

/-- `HashMap::entry(k).or_insert(v)` followed by writing the mutated bucket
back: replace the binding if the key is present, append it otherwise. -/
def insertAssoc (k : Nat) (v : Bucket) : List (Nat × Bucket) → List (Nat × Bucket)
  | [] => [(k, v)]
  | p :: rest => if p.1 = k then (k, v) :: rest else p :: insertAssoc k v rest

/-- `RoutingTable::touch_contact`. The pair is (table after the call, returned
eviction candidate). -/
def RoutingTable.touch_contact (t : RoutingTable) (c : Contact) :
    RoutingTable × Option Contact :=
  let index := log2_distance c.id t.local_id
  if index = 0 then (t, none)
  else
    let b := (getBucket? index t.buckets).getD (Bucket.new t.bucket_size)
    let r := b.touch_contact c
    ({ t with buckets := insertAssoc index r.1 t.buckets }, r.2)

/-- `RoutingTable::remove_contact`. -/
def RoutingTable.remove_contact (t : RoutingTable) (c : Contact) :
    RoutingTable × Option Contact :=
  let index := log2_distance c.id t.local_id
  if index = 0 then (t, none)
  else
    match getBucket? index t.buckets with
    | none => (t, none)
    | some b =>
      let r := b.remove_contact c
      ({ t with buckets := insertAssoc index r.1 t.buckets }, r.2)

/-- `RoutingTable::contains`. -/
def RoutingTable.contains (t : RoutingTable) (c : Contact) : Bool :=
  let index := log2_distance c.id t.local_id
  if index = 0 then false
  else
    match getBucket? index t.buckets with
    | none => false
    | some b => b.contains c

/-- `RoutingTable::conflicts`. -/
def RoutingTable.conflicts (t : RoutingTable) (c : Contact) : Bool :=
  let index := log2_distance c.id t.local_id
  if index = 0 then true
  else
    match getBucket? index t.buckets with
    | none => false
    | some b => b.conflicts c

/-- `RoutingTable::cleanup`. -/
def RoutingTable.cleanup (t : RoutingTable) : RoutingTable :=
  { t with buckets := t.buckets.filter (fun p => !p.2.is_empty) }

/-- `RoutingTable::remove_address`. -/
def RoutingTable.remove_address (t : RoutingTable) (a : Nat) : RoutingTable :=
  { t with buckets := t.buckets.map (fun p => (p.1, p.2.remove_address a)) }

/-- `RoutingTable::len`. -/
def RoutingTable.len (t : RoutingTable) : Nat :=
  (t.buckets.map (fun p => p.2.contacts.length)).sum

/-- The candidates one bucket contributes to `get_contacts_in_distance_order`:
the loop `for i in 0..bucket_size` breaking at the first missing index takes
the first `bucket_size` members; contacts whose id equals the target are
skipped; the rest are paired with their distance to the target. -/
def bucketItems (bs target : Nat) (b : Bucket) : List ContactWithDistance :=
  ((b.contacts.take bs).filter (fun c => c.id != target)).map (mkCWD target)

/-- All candidates, in bucket-scan order. -/
def scanItems (t : RoutingTable) (target : Nat) : List ContactWithDistance :=
  (t.buckets.map (fun p => bucketItems t.bucket_size target p.2)).flatten

/-- One iteration of the candidate loop body acting on the state
(`result`, `max_distance`): skip the candidate when it is farther than every
accepted candidate and the set already holds `bucket_size` entries. -/
def step (bs : Nat) (st : List ContactWithDistance × Nat) (x : ContactWithDistance) :
    List ContactWithDistance × Nat :=
  if st.2 < x.distance then
    if bs ≤ st.1.length then st
    else (insertSorted x st.1, x.distance)
  else (insertSorted x st.1, st.2)

/-- `RoutingTable::get_contacts_in_distance_order`, as the sorted list of the
`BTreeSet` it returns. -/
def RoutingTable.get_contacts_in_distance_order (t : RoutingTable) (target : Nat) :
    List ContactWithDistance :=
  ((scanItems t target).foldl (step t.bucket_size) ([], 0)).1

/-- `RoutingTable::get_closest_contacts`. -/
def RoutingTable.get_closest_contacts (t : RoutingTable) (target limit : Nat) :
    List Contact :=
  ((t.get_contacts_in_distance_order target).take (min limit t.bucket_size)).map
    (fun item => item.contact)

/-- The naive specification-side query (spec §4.1/§9 and claim C2): the first
`min(limit, bucket_size)` elements of the full candidate list — the first
`bucket_size` members of every bucket, minus contacts whose identifier equals
the target, sorted by (XOR distance to target, contact) with no pruning. -/
def naiveClosestContacts (t : RoutingTable) (target limit : Nat) : List Contact :=
  ((sortedInsertAll (scanItems t target)).take (min limit t.bucket_size)).map
    (fun item => item.contact)

/-- Tables reachable from `RoutingTable::new` by the public mutating
operations. -/
inductive Reachable : RoutingTable → Prop
  | new (lid bs : Nat) : Reachable (RoutingTable.new lid bs)
  | touch (t : RoutingTable) (c : Contact) :
      Reachable t → Reachable (t.touch_contact c).1
  | remove (t : RoutingTable) (c : Contact) :
      Reachable t → Reachable (t.remove_contact c).1
  | cleanup (t : RoutingTable) : Reachable t → Reachable t.cleanup
  | remove_address (t : RoutingTable) (a : Nat) :
      Reachable t → Reachable (t.remove_address a)

/-- Strictly sorted (hence duplicate-free) in the `ContactWithDistance` order:
the representation invariant of the `BTreeSet` model. -/
def SortedLt (l : List ContactWithDistance) : Prop := l.Pairwise cwdLt

/-- Invariant tying the pruned candidate loop's state (`result`,
`max_distance`) to the state of the pruning-free loop over the same prefix of
candidates: both are sorted, they agree on their first `bucket_size` entries
(and are fully equal while short), and `max_distance` bounds every accepted
distance. -/
def StepInv (bs : Nat) (st : List ContactWithDistance × Nat)
    (n : List ContactWithDistance) : Prop :=
  SortedLt st.1 ∧ SortedLt n ∧ st.1.take bs = n.take bs ∧
    (st.1.length < bs → st.1 = n) ∧ ∀ y ∈ st.1, y.distance ≤ st.2

/-- Well-formedness of one bucket binding: its distance class is nonzero and
is the class of every member, and no two members share an identifier. -/
def BucketOk (lid i : Nat) (b : Bucket) : Prop :=
  i ≠ 0 ∧ (∀ c ∈ b.contacts, log2_distance c.id lid = i) ∧
    (b.contacts.map Contact.id).Nodup

/-- Well-formedness of a table: distinct bucket keys and every bucket well
formed. Every reachable table satisfies this. -/
def TableInv (t : RoutingTable) : Prop :=
  (t.buckets.map Prod.fst).Nodup ∧ ∀ p ∈ t.buckets, BucketOk t.local_id p.1 p.2

/-- Example table: local id 0, bucket size 2, contacts 1, 2, 3 touched. -/
def exTable : RoutingTable :=
  ((((RoutingTable.new 0 2).touch_contact ⟨1, 0⟩).1.touch_contact ⟨2, 0⟩).1.touch_contact
    ⟨3, 0⟩).1

/-- Example table with bucket size 1 holding three contacts of distance class 3:
touches alone drive a bucket beyond `bucket_size + 1`. -/
def exOverfull : RoutingTable :=
  ((((RoutingTable.new 0 1).touch_contact ⟨4, 0⟩).1.touch_contact ⟨5, 0⟩).1.touch_contact
    ⟨6, 0⟩).1

/-- Example table with bucket size 1 whose distance-3 bucket holds two
contacts, one of them binding identifier 4 to address 0. -/
def exTwo : RoutingTable :=
  (((RoutingTable.new 0 1).touch_contact ⟨4, 0⟩).1.touch_contact ⟨5, 1⟩).1

/-- `exTable` with its bucket list enumerated in the opposite order: the same
map contents under a different (hash-map) iteration order. -/
def exTableSwapped : RoutingTable :=
  ⟨0, [(2, ⟨[⟨2, 0⟩, ⟨3, 0⟩], 2⟩), (1, ⟨[⟨1, 0⟩], 2⟩)], 2⟩

/-! ## The order on `ContactWithDistance` -/

theorem cwdLt_irrefl (a : ContactWithDistance) : ¬cwdLt a a := by
  simp only [cwdLt, contactLt]
  omega

theorem cwdLt_trans {a b c : ContactWithDistance} (h1 : cwdLt a b) (h2 : cwdLt b c) :
    cwdLt a c := by
  simp only [cwdLt, contactLt] at *
  omega

theorem cwdLt_asymm {a b : ContactWithDistance} (h : cwdLt a b) : ¬cwdLt b a := by
  simp only [cwdLt, contactLt] at *
  omega

theorem cwdLt_or_eq_or (a b : ContactWithDistance) : cwdLt a b ∨ a = b ∨ cwdLt b a := by
  simp only [cwdLt, contactLt, cwd_eq_iff, contact_eq_iff]
  omega

theorem cwdLt_ne {a b : ContactWithDistance} (h : cwdLt a b) : a ≠ b := by
  rintro rfl
  exact cwdLt_irrefl a h

theorem cwdLt_of_distance_lt {a b : ContactWithDistance}
    (h : a.distance < b.distance) : cwdLt a b :=
  Or.inl h

instance : IsIrrefl ContactWithDistance cwdLt := ⟨cwdLt_irrefl⟩

instance : IsAntisymm ContactWithDistance cwdLt :=
  ⟨fun _ _ h h' => absurd h' (cwdLt_asymm h)⟩

/-! ## Ordered insertion -/

theorem mem_insertSorted {x z : ContactWithDistance} :
    ∀ {l : List ContactWithDistance}, z ∈ insertSorted x l ↔ z = x ∨ z ∈ l := by
  intro l
  induction l with
  | nil => simp [insertSorted]
  | cons y ys ih =>
    simp only [insertSorted]
    split_ifs with h1 h2
    · simp [List.mem_cons]
    · subst h2
      simp only [List.mem_cons]
      tauto
    · simp only [List.mem_cons, ih]
      tauto

theorem length_insertSorted_le (x : ContactWithDistance) :
    ∀ l : List ContactWithDistance, (insertSorted x l).length ≤ l.length + 1 := by
  intro l
  induction l with
  | nil => simp [insertSorted]
  | cons y ys ih =>
    simp only [insertSorted]
    split_ifs with h1 h2
    · simp
    · simp
    · simpa using ih

theorem le_length_insertSorted (x : ContactWithDistance) :
    ∀ l : List ContactWithDistance, l.length ≤ (insertSorted x l).length := by
  intro l
  induction l with
  | nil => simp [insertSorted]
  | cons y ys ih =>
    simp only [insertSorted]
    split_ifs with h1 h2
    · simp
    · simp
    · simpa using ih

theorem sortedLt_insertSorted (x : ContactWithDistance) :
    ∀ {l : List ContactWithDistance}, SortedLt l → SortedLt (insertSorted x l) := by
  intro l
  induction l with
  | nil =>
    intro _
    simp [insertSorted, SortedLt]
  | cons y ys ih =>
    intro h
    rcases (List.pairwise_cons.mp h) with ⟨hy, hys⟩
    simp only [insertSorted]
    split_ifs with h1 h2
    · refine List.Pairwise.cons ?_ h
      intro z hz
      rcases List.mem_cons.mp hz with rfl | hz'
      · exact h1
      · exact cwdLt_trans h1 (hy z hz')
    · exact h
    · refine List.Pairwise.cons ?_ (ih hys)
      intro z hz
      rcases mem_insertSorted.mp hz with rfl | hz'
      · rcases cwdLt_or_eq_or z y with hlt | heq | hgt
        · exact absurd hlt h1
        · exact absurd heq h2
        · exact hgt
      · exact hy z hz'

theorem take_eq_of_le {α : Type} {r n : List α} {k i : Nat}
    (h : r.take k = n.take k) (hik : i ≤ k) : r.take i = n.take i := by
  have h2 := congrArg (List.take i) h
  simpa [List.take_take, Nat.min_eq_left hik] using h2

theorem take_insertSorted_of_forall_lt (x : ContactWithDistance) :
    ∀ (k : Nat) (n : List ContactWithDistance),
      (∀ y ∈ n.take k, cwdLt y x) → k ≤ n.length →
      (insertSorted x n).take k = n.take k := by
  intro k n
  induction n generalizing k with
  | nil =>
    intro _ hk
    have hk0 : k = 0 := Nat.le_zero.mp hk
    subst hk0
    simp
  | cons a t ih =>
    intro hall hk
    cases k with
    | zero => simp
    | succ j =>
      have ha : cwdLt a x := hall a (by simp)
      simp only [insertSorted]
      split_ifs with h1 h2
      · exact absurd h1 (cwdLt_asymm ha)
      · subst h2
        exact absurd ha (cwdLt_irrefl _)
      · simp only [List.take_succ_cons, List.cons.injEq, true_and]
        refine ih j ?_ ?_
        · intro y hy
          exact hall y (by simpa using Or.inr hy)
        · simpa using Nat.succ_le_succ_iff.mp hk

theorem take_insertSorted_congr (x : ContactWithDistance) :
    ∀ (k : Nat) (r n : List ContactWithDistance),
      r.take k = n.take k → k ≤ r.length →
      (insertSorted x r).take k = (insertSorted x n).take k := by
  intro k r
  induction r generalizing k with
  | nil =>
    intro n _ hk
    have hk0 : k = 0 := Nat.le_zero.mp hk
    subst hk0
    simp
  | cons a r' ih =>
    intro n htake hk
    cases k with
    | zero => simp
    | succ j =>
      cases n with
      | nil => simp at htake
      | cons b n' =>
        simp only [List.take_succ_cons, List.cons.injEq] at htake
        obtain ⟨rfl, htake'⟩ := htake
        simp only [insertSorted]
        split_ifs with h1 h2
        · simp only [List.take_succ_cons, List.cons.injEq, true_and]
          exact take_eq_of_le (by simpa using htake') (Nat.le_succ j)
        · simp only [List.take_succ_cons, List.cons.injEq, true_and]
          exact htake'
        · simp only [List.take_succ_cons, List.cons.injEq, true_and]
          exact ih j n' htake' (by simpa using Nat.succ_le_succ_iff.mp hk)

theorem sortedLt_eq_of_mem {l₁ l₂ : List ContactWithDistance}
    (h₁ : SortedLt l₁) (h₂ : SortedLt l₂) (hm : ∀ z, z ∈ l₁ ↔ z ∈ l₂) : l₁ = l₂ := by
  have nd₁ : l₁.Nodup := List.Pairwise.nodup h₁
  have nd₂ : l₂.Nodup := List.Pairwise.nodup h₂
  have hp : List.Perm l₁ l₂ := (List.perm_ext_iff_of_nodup nd₁ nd₂).mpr hm
  exact List.eq_of_perm_of_sorted hp h₁ h₂

theorem insertSorted_comm_of_sorted {s : List ContactWithDistance}
    (hs : SortedLt s) (x y : ContactWithDistance) :
    insertSorted x (insertSorted y s) = insertSorted y (insertSorted x s) := by
  refine sortedLt_eq_of_mem
    (sortedLt_insertSorted x (sortedLt_insertSorted y hs))
    (sortedLt_insertSorted y (sortedLt_insertSorted x hs)) ?_
  intro z
  simp only [mem_insertSorted]
  tauto

theorem foldl_insertSorted_perm {l₁ l₂ : List ContactWithDistance} (p : List.Perm l₁ l₂) :
    ∀ s : List ContactWithDistance, SortedLt s →
      l₁.foldl (fun s x => insertSorted x s) s = l₂.foldl (fun s x => insertSorted x s) s := by
  induction p with
  | nil =>
    intro s _
    rfl
  | cons x p ih =>
    intro s hs
    simp only [List.foldl_cons]
    exact ih (insertSorted x s) (sortedLt_insertSorted x hs)
  | swap x y l =>
    intro s hs
    simp only [List.foldl_cons]
    rw [insertSorted_comm_of_sorted hs]
  | trans p₁ p₂ ih₁ ih₂ =>
    intro s hs
    exact (ih₁ s hs).trans (ih₂ s hs)

theorem sortedInsertAll_perm {l₁ l₂ : List ContactWithDistance} (p : List.Perm l₁ l₂) :
    sortedInsertAll l₁ = sortedInsertAll l₂ :=
  foldl_insertSorted_perm p [] (List.Pairwise.nil)

theorem sortedLt_foldl_insertSorted (l : List ContactWithDistance) :
    ∀ s : List ContactWithDistance, SortedLt s →
      SortedLt (l.foldl (fun s x => insertSorted x s) s) := by
  induction l with
  | nil =>
    intro s hs
    exact hs
  | cons x l ih =>
    intro s hs
    simp only [List.foldl_cons]
    exact ih (insertSorted x s) (sortedLt_insertSorted x hs)

theorem sortedLt_sortedInsertAll (l : List ContactWithDistance) :
    SortedLt (sortedInsertAll l) :=
  sortedLt_foldl_insertSorted l [] (List.Pairwise.nil)

/-! ## The pruned candidate loop refines the naive one -/

theorem stepInv_step {bs : Nat} {st : List ContactWithDistance × Nat}
    {n : List ContactWithDistance} {x : ContactWithDistance}
    (h : StepInv bs st n) : StepInv bs (step bs st x) (insertSorted x n) := by
  obtain ⟨r, maxd⟩ := st
  obtain ⟨hsr, hsn, htake, heq, hbound⟩ := h
  simp only [step]
  split_ifs with h1 h2
  · -- skipped: the candidate is farther than everything accepted and the
    -- accepted set is already full, so it lands beyond the first `bs` slots.
    have hlen_n : bs ≤ n.length := by
      have hl := congrArg List.length htake
      simp only [List.length_take] at hl
      omega
    refine ⟨hsr, sortedLt_insertSorted x hsn, ?_, ?_, hbound⟩
    · rw [take_insertSorted_of_forall_lt x bs n ?_ hlen_n]
      · exact htake
      · intro y hy
        have hyr : y ∈ r := by
          rw [← htake] at hy
          exact List.take_subset bs r hy
        exact cwdLt_of_distance_lt (by have := hbound y hyr; omega)
    · intro hlt
      have hlt' : r.length < bs := hlt
      omega
  · -- inserted while the accepted set is short: both sides are still equal.
    have hrn : r = n := heq (show r.length < bs by omega)
    subst hrn
    refine ⟨sortedLt_insertSorted x hsr, sortedLt_insertSorted x hsr, rfl,
      fun _ => rfl, ?_⟩
    intro y hy
    rcases mem_insertSorted.mp hy with rfl | hy'
    · exact Nat.le_refl _
    · have := hbound y hy'
      omega
  · -- inserted with distance at most the current maximum.
    by_cases hlen : r.length < bs
    · have hrn : r = n := heq hlen
      subst hrn
      refine ⟨sortedLt_insertSorted x hsr, sortedLt_insertSorted x hsr, rfl,
        fun _ => rfl, ?_⟩
      intro y hy
      rcases mem_insertSorted.mp hy with rfl | hy'
      · omega
      · exact hbound y hy'
    · refine ⟨sortedLt_insertSorted x hsr, sortedLt_insertSorted x hsn,
        take_insertSorted_congr x bs r n htake (by omega), ?_, ?_⟩
      · intro hlt
        have hlt' : (insertSorted x r).length < bs := hlt
        have hle := le_length_insertSorted x r
        omega
      · intro y hy
        rcases mem_insertSorted.mp hy with rfl | hy'
        · omega
        · exact hbound y hy'

theorem stepInv_foldl (bs : Nat) :
    ∀ (items : List ContactWithDistance) (st : List ContactWithDistance × Nat)
      (n : List ContactWithDistance), StepInv bs st n →
      StepInv bs (items.foldl (step bs) st)
        (items.foldl (fun s x => insertSorted x s) n) := by
  intro items
  induction items with
  | nil =>
    intro st n h
    exact h
  | cons x items ih =>
    intro st n h
    simp only [List.foldl_cons]
    exact ih _ _ (stepInv_step h)

theorem stepInv_init (bs : Nat) : StepInv bs ([], 0) [] :=
  ⟨List.Pairwise.nil, List.Pairwise.nil, rfl, fun _ => rfl, by simp⟩

/-- The max-distance pruning never changes the first `bucket_size` entries of
the distance-ordered set: taking any `k ≤ bucket_size` elements of the pruned
loop's result equals taking them from the pruning-free ordered set. -/
theorem pruned_take_eq_naive (bs : Nat) (items : List ContactWithDistance)
    {k : Nat} (hk : k ≤ bs) :
    ((items.foldl (step bs) ([], 0)).1).take k = (sortedInsertAll items).take k := by
  obtain ⟨_, _, htake, _, _⟩ := stepInv_foldl bs items ([], 0) [] (stepInv_init bs)
  exact take_eq_of_le htake hk

theorem sortedLt_step {bs : Nat} {st : List ContactWithDistance × Nat}
    {x : ContactWithDistance} (h : SortedLt st.1) : SortedLt (step bs st x).1 := by
  simp only [step]
  split_ifs with h1 h2
  · exact h
  · exact sortedLt_insertSorted x h
  · exact sortedLt_insertSorted x h

theorem sortedLt_foldl_step (bs : Nat) :
    ∀ (items : List ContactWithDistance) (st : List ContactWithDistance × Nat),
      SortedLt st.1 → SortedLt ((items.foldl (step bs) st).1) := by
  intro items
  induction items with
  | nil =>
    intro st h
    exact h
  | cons x items ih =>
    intro st h
    simp only [List.foldl_cons]
    exact ih _ (sortedLt_step h)

theorem mem_step {bs : Nat} {st : List ContactWithDistance × Nat}
    {x z : ContactWithDistance} (h : z ∈ (step bs st x).1) : z ∈ st.1 ∨ z = x := by
  simp only [step] at h
  split_ifs at h with h1 h2
  · exact Or.inl h
  · rcases mem_insertSorted.mp h with rfl | hz
    · exact Or.inr rfl
    · exact Or.inl hz
  · rcases mem_insertSorted.mp h with rfl | hz
    · exact Or.inr rfl
    · exact Or.inl hz

theorem mem_foldl_step (bs : Nat) :
    ∀ (items : List ContactWithDistance) (st : List ContactWithDistance × Nat)
      (z : ContactWithDistance), z ∈ (items.foldl (step bs) st).1 →
      z ∈ st.1 ∨ z ∈ items := by
  intro items
  induction items with
  | nil =>
    intro st z h
    exact Or.inl h
  | cons x items ih =>
    intro st z h
    simp only [List.foldl_cons] at h
    rcases ih _ z h with h' | h'
    · rcases mem_step h' with h'' | rfl
      · exact Or.inl h''
      · exact Or.inr (by simp)
    · exact Or.inr (by simp [h'])

/-! ## Association-list (bucket map) lemmas -/

theorem getBucket?_insertAssoc_self (k : Nat) (v : Bucket) :
    ∀ l : List (Nat × Bucket), getBucket? k (insertAssoc k v l) = some v := by
  intro l
  induction l with
  | nil => simp [insertAssoc, getBucket?]
  | cons p rest ih =>
    simp only [insertAssoc]
    split_ifs with h
    · simp [getBucket?]
    · simp [getBucket?, h, ih]

theorem getBucket?_insertAssoc_ne {i k : Nat} (h : i ≠ k) (v : Bucket) :
    ∀ l : List (Nat × Bucket), getBucket? i (insertAssoc k v l) = getBucket? i l := by
  intro l
  induction l with
  | nil =>
    simp only [insertAssoc, getBucket?]
    rw [if_neg (Ne.symm h)]
  | cons p rest ih =>
    simp only [insertAssoc]
    split_ifs with hp
    · simp only [getBucket?, hp]
      rw [if_neg (Ne.symm h), if_neg (Ne.symm h)]
    · simp [getBucket?, ih]

theorem insertAssoc_of_getBucket? {k : Nat} {v : Bucket} :
    ∀ {l : List (Nat × Bucket)}, getBucket? k l = some v → insertAssoc k v l = l := by
  intro l
  induction l with
  | nil => simp [getBucket?]
  | cons p rest ih =>
    intro h
    simp only [getBucket?] at h
    simp only [insertAssoc]
    split_ifs with hp
    · simp only [hp, if_pos rfl] at h
      obtain rfl : v = p.2 := by simpa using h.symm
      rw [← hp]
    · rw [if_neg hp] at h
      rw [ih h]

theorem mem_insertAssoc {k : Nat} {v : Bucket} {p : Nat × Bucket} :
    ∀ {l : List (Nat × Bucket)}, p ∈ insertAssoc k v l → p = (k, v) ∨ p ∈ l := by
  intro l
  induction l with
  | nil => simp [insertAssoc]
  | cons q rest ih =>
    intro h
    simp only [insertAssoc] at h
    split_ifs at h with hq
    · rcases List.mem_cons.mp h with heq | h'
      · exact Or.inl heq
      · exact Or.inr (List.mem_cons_of_mem q h')
    · rcases List.mem_cons.mp h with heq | h'
      · exact Or.inr (by rw [heq]; exact List.mem_cons_self q rest)
      · rcases ih h' with h'' | h''
        · exact Or.inl h''
        · exact Or.inr (List.mem_cons_of_mem q h'')

theorem getBucket?_mem {i : Nat} {b : Bucket} :
    ∀ {l : List (Nat × Bucket)}, getBucket? i l = some b → (i, b) ∈ l := by
  intro l
  induction l with
  | nil => simp [getBucket?]
  | cons q rest ih =>
    intro h
    simp only [getBucket?] at h
    split_ifs at h with hq
    · have hb : q.2 = b := by simpa using h
      refine List.mem_cons.mpr (Or.inl ?_)
      rw [← hq, ← hb]
    · exact List.mem_cons_of_mem q (ih h)

theorem keys_insertAssoc_mem (k : Nat) (v : Bucket) :
    ∀ l : List (Nat × Bucket), k ∈ l.map Prod.fst →
      (insertAssoc k v l).map Prod.fst = l.map Prod.fst := by
  intro l
  induction l with
  | nil => simp
  | cons p rest ih =>
    intro hmem
    simp only [insertAssoc]
    split_ifs with hp
    · simp [← hp]
    · simp only [List.map_cons]
      rw [List.map_cons] at hmem
      rw [ih]
      rcases List.mem_cons.mp hmem with heq | h'
      · exact absurd heq.symm hp
      · exact h'

theorem keys_insertAssoc_not_mem (k : Nat) (v : Bucket) :
    ∀ l : List (Nat × Bucket), k ∉ l.map Prod.fst →
      (insertAssoc k v l).map Prod.fst = l.map Prod.fst ++ [k] := by
  intro l
  induction l with
  | nil => simp [insertAssoc]
  | cons p rest ih =>
    intro hmem
    simp only [List.map_cons, List.mem_cons] at hmem
    push_neg at hmem
    simp only [insertAssoc]
    split_ifs with hp
    · exact absurd hp.symm hmem.1
    · simp only [List.map_cons]
      rw [ih hmem.2]
      simp

/-! ## Basic facts about the operations -/

theorem log2_distance_self (a : Nat) : log2_distance a a = 0 := by
  simp [log2_distance, Nat.xor_self, bitLen, bitLenAux]

theorem Bucket.touch_contact_fst (b : Bucket) (c : Contact) :
    (b.touch_contact c).1 =
      if Bucket.conflicts { b with contacts := b.contacts.filter (fun old => old != c) } c
      then { b with contacts := b.contacts.filter (fun old => old != c) }
      else { b with contacts := b.contacts.filter (fun old => old != c) ++ [c] } := rfl

theorem Bucket.touch_contact_snd (b : Bucket) (c : Contact) :
    (b.touch_contact c).2 = (b.touch_contact c).1.head_if_full := rfl

theorem Bucket.remove_contact_fst (b : Bucket) (c : Contact) :
    (b.remove_contact c).1 =
      { b with contacts := b.contacts.filter (fun old => old != c) } := rfl

theorem conflicts_iff {b : Bucket} {c : Contact} :
    b.conflicts c = true ↔ ∃ c' ∈ b.contacts, c'.id = c.id ∧ c'.addr ≠ c.addr := by
  simp [Bucket.conflicts, List.any_eq_true]

theorem filter_ne_eq_of_not_mem {l : List Contact} {c : Contact} (h : c ∉ l) :
    l.filter (fun old => old != c) = l := by
  refine List.filter_eq_self.mpr ?_
  intro a ha
  simp only [bne_iff_ne, ne_eq, decide_eq_true_eq]
  rintro rfl
  exact h ha

theorem not_mem_filter_ne (l : List Contact) (c : Contact) :
    c ∉ l.filter (fun old => old != c) := by
  intro h
  have h2 := (List.mem_filter.mp h).2
  simp at h2

theorem RoutingTable.touch_contact_zero {t : RoutingTable} {c : Contact}
    (h : log2_distance c.id t.local_id = 0) : t.touch_contact c = (t, none) := by
  simp only [RoutingTable.touch_contact]
  rw [if_pos h]

theorem RoutingTable.touch_contact_pos {t : RoutingTable} {c : Contact}
    (h : log2_distance c.id t.local_id ≠ 0) :
    t.touch_contact c =
      ({ t with
          buckets := insertAssoc (log2_distance c.id t.local_id)
            (((getBucket? (log2_distance c.id t.local_id) t.buckets).getD
              (Bucket.new t.bucket_size)).touch_contact c).1 t.buckets },
        (((getBucket? (log2_distance c.id t.local_id) t.buckets).getD
          (Bucket.new t.bucket_size)).touch_contact c).2) := by
  simp only [RoutingTable.touch_contact]
  rw [if_neg h]

theorem RoutingTable.remove_contact_zero {t : RoutingTable} {c : Contact}
    (h : log2_distance c.id t.local_id = 0) : t.remove_contact c = (t, none) := by
  simp only [RoutingTable.remove_contact]
  rw [if_pos h]

theorem RoutingTable.remove_contact_none {t : RoutingTable} {c : Contact}
    (h : log2_distance c.id t.local_id ≠ 0)
    (hg : getBucket? (log2_distance c.id t.local_id) t.buckets = none) :
    t.remove_contact c = (t, none) := by
  simp only [RoutingTable.remove_contact]
  rw [if_neg h, hg]

theorem RoutingTable.remove_contact_some {t : RoutingTable} {c : Contact} {b : Bucket}
    (h : log2_distance c.id t.local_id ≠ 0)
    (hg : getBucket? (log2_distance c.id t.local_id) t.buckets = some b) :
    t.remove_contact c =
      ({ t with
          buckets := insertAssoc (log2_distance c.id t.local_id)
            (b.remove_contact c).1 t.buckets },
        (b.remove_contact c).2) := by
  simp only [RoutingTable.remove_contact]
  rw [if_neg h, hg]

/-! ## Preservation of the table invariant -/

theorem bucketOk_filter {lid i : Nat} {b : Bucket} (pr : Contact → Bool)
    (h : BucketOk lid i b) :
    BucketOk lid i { b with contacts := b.contacts.filter pr } := by
  obtain ⟨hi, hmem, hnd⟩ := h
  refine ⟨hi, ?_, ?_⟩
  · intro c' hc'
    exact hmem c' (List.mem_filter.mp hc').1
  · exact List.Nodup.sublist ((List.filter_sublist _).map _) hnd

theorem bucketOk_touch {lid i : Nat} {b : Bucket} {c : Contact}
    (hi : i ≠ 0) (hc : log2_distance c.id lid = i)
    (hmem : ∀ c' ∈ b.contacts, log2_distance c'.id lid = i)
    (hnd : (b.contacts.map Contact.id).Nodup) :
    BucketOk lid i (b.touch_contact c).1 := by
  rw [Bucket.touch_contact_fst]
  split_ifs with hconf
  · exact bucketOk_filter _ ⟨hi, hmem, hnd⟩
  · refine ⟨hi, ?_, ?_⟩
    · intro c' hc'
      rcases List.mem_append.mp hc' with h' | h'
      · exact hmem c' (List.mem_filter.mp h').1
      · have hcc : c' = c := List.mem_singleton.mp h'
        rw [hcc]
        exact hc
    · rw [List.map_append]
      refine List.Nodup.append (List.Nodup.sublist ((List.filter_sublist _).map _) hnd)
        (by simp) ?_
      intro x hx1 hx2
      have hx2' : x = c.id := by simpa using hx2
      subst hx2'
      rcases List.mem_map.mp hx1 with ⟨c', hc', hid⟩
      have hcc : c' ≠ c := by
        have h2 := (List.mem_filter.mp hc').2
        simpa using h2
      have haddr : c'.addr ≠ c.addr := by
        intro haddr
        exact hcc (contact_eq_iff.mpr ⟨hid, haddr⟩)
      exact hconf (conflicts_iff.mpr ⟨c', hc', hid, haddr⟩)

theorem tableInv_new (lid bs : Nat) : TableInv (RoutingTable.new lid bs) :=
  ⟨List.Pairwise.nil, by simp [RoutingTable.new]⟩

theorem tableInv_touch {t : RoutingTable} (c : Contact) (h : TableInv t) :
    TableInv (t.touch_contact c).1 := by
  by_cases hz : log2_distance c.id t.local_id = 0
  · rw [RoutingTable.touch_contact_zero hz]
    exact h
  · rw [RoutingTable.touch_contact_pos hz]
    refine ⟨?_, ?_⟩
    · by_cases hk : log2_distance c.id t.local_id ∈ t.buckets.map Prod.fst
      · rw [keys_insertAssoc_mem _ _ _ hk]
        exact h.1
      · rw [keys_insertAssoc_not_mem _ _ _ hk]
        simp [List.nodup_append, h.1, hk]
    · intro p hp
      rcases mem_insertAssoc hp with heq | hpl
      · rw [heq]
        have hb : ∀ c' ∈ ((getBucket? (log2_distance c.id t.local_id) t.buckets).getD
              (Bucket.new t.bucket_size)).contacts,
            log2_distance c'.id t.local_id = log2_distance c.id t.local_id := by
          cases hget : getBucket? (log2_distance c.id t.local_id) t.buckets with
          | none => simp [hget, Bucket.new]
          | some b0 =>
            simp only [hget, Option.getD_some]
            intro c' hc'
            exact (h.2 _ (getBucket?_mem hget)).2.1 c' hc'
        have hbnd : (((getBucket? (log2_distance c.id t.local_id) t.buckets).getD
              (Bucket.new t.bucket_size)).contacts.map Contact.id).Nodup := by
          cases hget : getBucket? (log2_distance c.id t.local_id) t.buckets with
          | none => simp [hget, Bucket.new]
          | some b0 =>
            simp only [hget, Option.getD_some]
            exact (h.2 _ (getBucket?_mem hget)).2.2
        exact bucketOk_touch hz rfl hb hbnd
      · exact h.2 p hpl

theorem tableInv_remove {t : RoutingTable} (c : Contact) (h : TableInv t) :
    TableInv (t.remove_contact c).1 := by
  by_cases hz : log2_distance c.id t.local_id = 0
  · rw [RoutingTable.remove_contact_zero hz]
    exact h
  · cases hget : getBucket? (log2_distance c.id t.local_id) t.buckets with
    | none =>
      rw [RoutingTable.remove_contact_none hz hget]
      exact h
    | some b0 =>
      rw [RoutingTable.remove_contact_some hz hget]
      refine ⟨?_, ?_⟩
      · rw [keys_insertAssoc_mem]
        · exact h.1
        · exact List.mem_map.mpr ⟨_, getBucket?_mem hget, rfl⟩
      · intro p hp
        rcases mem_insertAssoc hp with heq | hpl
        · rw [heq]
          rw [Bucket.remove_contact_fst]
          exact bucketOk_filter _ (h.2 _ (getBucket?_mem hget))
        · exact h.2 p hpl

theorem tableInv_cleanup {t : RoutingTable} (h : TableInv t) : TableInv t.cleanup := by
  refine ⟨?_, ?_⟩
  · exact List.Nodup.sublist ((List.filter_sublist _).map _) h.1
  · intro p hp
    exact h.2 p (List.mem_of_mem_filter hp)

theorem tableInv_remove_address {t : RoutingTable} (a : Nat) (h : TableInv t) :
    TableInv (t.remove_address a) := by
  refine ⟨?_, ?_⟩
  · show ((t.buckets.map fun p => (p.1, p.2.remove_address a)).map Prod.fst).Nodup
    rw [List.map_map]
    exact h.1
  · intro p hp
    rcases List.mem_map.mp hp with ⟨q, hq, heq⟩
    rw [← heq]
    exact bucketOk_filter _ (h.2 q hq)

theorem reachable_tableInv {t : RoutingTable} (h : Reachable t) : TableInv t := by
  induction h with
  | new lid bs => exact tableInv_new lid bs
  | touch t c _ ih => exact tableInv_touch c ih
  | remove t c _ ih => exact tableInv_remove c ih
  | cleanup t _ ih => exact tableInv_cleanup ih
  | remove_address t a _ ih => exact tableInv_remove_address a ih

/-! ## Bucket-level helper lemmas -/

theorem Bucket.ext' {a b : Bucket} (h1 : a.contacts = b.contacts)
    (h2 : a.bucket_size = b.bucket_size) : a = b := by
  cases a
  cases b
  simp_all

theorem touch_fst_bucket_size (b : Bucket) (c : Contact) :
    (b.touch_contact c).1.bucket_size = b.bucket_size := by
  rw [Bucket.touch_contact_fst]
  split_ifs <;> rfl

theorem touch_fst_contacts (b : Bucket) (c : Contact) :
    (b.touch_contact c).1.contacts =
      if (b.contacts.filter (fun old => old != c)).any
          (fun old => old.id == c.id && old.addr != c.addr)
      then b.contacts.filter (fun old => old != c)
      else b.contacts.filter (fun old => old != c) ++ [c] := by
  rw [Bucket.touch_contact_fst]
  simp only [Bucket.conflicts]
  split_ifs <;> rfl

theorem filter_ne_idem (l : List Contact) (c : Contact) :
    (l.filter (fun old => old != c)).filter (fun old => old != c) =
      l.filter (fun old => old != c) :=
  List.filter_eq_self.mpr fun _ ha => (List.mem_filter.mp ha).2

theorem filter_ne_append_self (l : List Contact) (c : Contact) :
    ((l.filter (fun old => old != c)) ++ [c]).filter (fun old => old != c) =
      l.filter (fun old => old != c) := by
  rw [List.filter_append, filter_ne_idem]
  simp

theorem bucket_touch_idem (b : Bucket) (c : Contact) :
    ((b.touch_contact c).1.touch_contact c).1 = (b.touch_contact c).1 := by
  refine Bucket.ext' ?_ (by rw [touch_fst_bucket_size, touch_fst_bucket_size])
  rw [touch_fst_contacts ((b.touch_contact c).1) c, touch_fst_contacts b c]
  by_cases hconf : (b.contacts.filter (fun old => old != c)).any
      (fun old => old.id == c.id && old.addr != c.addr) = true
  · rw [if_pos hconf, filter_ne_idem, if_pos hconf]
  · rw [if_neg hconf, filter_ne_append_self, if_neg hconf]

theorem touch_contacts_length_le (b : Bucket) (c : Contact) :
    (b.touch_contact c).1.contacts.length ≤ b.contacts.length + 1 := by
  rw [touch_fst_contacts]
  split_ifs with h
  · exact Nat.le_succ_of_le (List.length_filter_le _ _)
  · simp only [List.length_append, List.length_cons, List.length_nil]
    have := List.length_filter_le (fun old => old != c) b.contacts
    omega

theorem getBucket?_of_mem :
    ∀ {l : List (Nat × Bucket)}, (l.map Prod.fst).Nodup →
      ∀ {p : Nat × Bucket}, p ∈ l → getBucket? p.1 l = some p.2 := by
  intro l
  induction l with
  | nil => simp
  | cons q rest ih =>
    intro hnd p hp
    have hnd2 : (q.1 :: rest.map Prod.fst).Nodup := by
      rw [List.map_cons] at hnd
      exact hnd
    have hnd' := List.nodup_cons.mp hnd2
    rcases List.mem_cons.mp hp with heq | hmem
    · rw [heq]
      simp [getBucket?]
    · simp only [getBucket?]
      split_ifs with hq
      · exact absurd (by rw [hq]; exact List.mem_map.mpr ⟨p, hmem, rfl⟩) hnd'.1
      · exact ih hnd'.2 hmem

theorem perm_flatten_of_perm {α : Type} {l₁ l₂ : List (List α)}
    (p : List.Perm l₁ l₂) : List.Perm l₁.flatten l₂.flatten := by
  induction p with
  | nil => exact List.Perm.refl _
  | cons x p ih =>
    simp only [List.flatten_cons]
    exact List.Perm.append_left x ih
  | swap x y l =>
    simp only [List.flatten_cons]
    rw [← List.append_assoc, ← List.append_assoc]
    exact List.Perm.append_right _ List.perm_append_comm
  | trans p₁ p₂ ih₁ ih₂ => exact ih₁.trans ih₂

theorem touch_contact_idem (t : RoutingTable) (c : Contact) :
    ((t.touch_contact c).1.touch_contact c).1 = (t.touch_contact c).1 := by
  by_cases hz : log2_distance c.id t.local_id = 0
  · have h1 : (t.touch_contact c).1 = t := by rw [RoutingTable.touch_contact_zero hz]
    rw [h1]
    exact h1
  · have hl : (t.touch_contact c).1.local_id = t.local_id := by
      rw [RoutingTable.touch_contact_pos hz]
    have hbs : (t.touch_contact c).1.bucket_size = t.bucket_size := by
      rw [RoutingTable.touch_contact_pos hz]
    have hz' : log2_distance c.id (t.touch_contact c).1.local_id ≠ 0 := by
      rw [hl]
      exact hz
    have hbk : (t.touch_contact c).1.buckets =
        insertAssoc (log2_distance c.id t.local_id)
          (((getBucket? (log2_distance c.id t.local_id) t.buckets).getD
            (Bucket.new t.bucket_size)).touch_contact c).1 t.buckets := by
      rw [RoutingTable.touch_contact_pos hz]
    have hget : getBucket? (log2_distance c.id (t.touch_contact c).1.local_id)
        (t.touch_contact c).1.buckets =
        some (((getBucket? (log2_distance c.id t.local_id) t.buckets).getD
          (Bucket.new t.bucket_size)).touch_contact c).1 := by
      rw [hl, hbk]
      exact getBucket?_insertAssoc_self _ _ _
    rw [RoutingTable.touch_contact_pos hz']
    rw [hget]
    simp only [Option.getD_some]
    rw [bucket_touch_idem]
    rw [insertAssoc_of_getBucket? hget]

/-! ## Claims -/

/-- C1: for every reachable routing table, every target identifier, and every
limit, the list returned by `get_closest_contacts(target, limit)` has length at
most `min(limit, bucket_size)`. -/
theorem closest_contacts_length_le (t : RoutingTable) (target limit : Nat)
    (h : Reachable t) :
    (t.get_closest_contacts target limit).length ≤ min limit t.bucket_size := by
  simp only [RoutingTable.get_closest_contacts, List.length_map, List.length_take]
  exact Nat.min_le_left _ _

theorem closest_contacts_length_le_witness :
    (exTable.get_closest_contacts 3 2).length ≤ min 2 exTable.bucket_size :=
  closest_contacts_length_le exTable 3 2
    (Reachable.touch _ _ (Reachable.touch _ _ (Reachable.touch _ _ (Reachable.new 0 2))))

/-- C8: for every reachable table and every contact `c` with
`log2_distance(c.id, local_id) == 0`, `touch` and `remove` are no-ops that
leave the table unchanged and return `None`, `contains` returns false, and
`conflicts` returns true. -/
theorem distance_zero_operations_noop (t : RoutingTable) (c : Contact)
    (hr : Reachable t) (h : log2_distance c.id t.local_id = 0) :
    t.touch_contact c = (t, none) ∧ t.remove_contact c = (t, none) ∧
      t.contains c = false ∧ t.conflicts c = true := by
  refine ⟨RoutingTable.touch_contact_zero h, RoutingTable.remove_contact_zero h, ?_, ?_⟩
  · simp only [RoutingTable.contains]
    rw [if_pos h]
  · simp only [RoutingTable.conflicts]
    rw [if_pos h]

theorem distance_zero_operations_noop_witness :
    (RoutingTable.new 5 2).touch_contact ⟨5, 7⟩ = (RoutingTable.new 5 2, none) ∧
      (RoutingTable.new 5 2).remove_contact ⟨5, 7⟩ = (RoutingTable.new 5 2, none) ∧
      (RoutingTable.new 5 2).contains ⟨5, 7⟩ = false ∧
      (RoutingTable.new 5 2).conflicts ⟨5, 7⟩ = true :=
  distance_zero_operations_noop (RoutingTable.new 5 2) ⟨5, 7⟩ (Reachable.new 5 2)
    (by decide)

/-- C7: `Bucket::touch_contact` returns `Some` of the front-of-bucket
(least-recently-seen) member if and only if, after the operation, the bucket
holds strictly more than `bucket_size` contacts; the returned member is not
removed and remains in the bucket. Via the second conjunct, the same holds for
`RoutingTable::touch_contact` when the contact's distance from the local
identifier is nonzero, since the table then returns the bucket's signal
unchanged. -/
theorem touch_eviction_signal (b : Bucket) (c : Contact) (t : RoutingTable)
    (ht : log2_distance c.id t.local_id ≠ 0) :
    ((∃ x, (b.touch_contact c).2 = some x ∧
        (b.touch_contact c).1.contacts.head? = some x ∧
        x ∈ (b.touch_contact c).1.contacts) ↔
      b.bucket_size < (b.touch_contact c).1.contacts.length) ∧
    (t.touch_contact c).2 =
      (((getBucket? (log2_distance c.id t.local_id) t.buckets).getD
        (Bucket.new t.bucket_size)).touch_contact c).2 := by
  constructor
  · rw [Bucket.touch_contact_snd]
    have hbs : (b.touch_contact c).1.bucket_size = b.bucket_size :=
      touch_fst_bucket_size b c
    simp only [Bucket.head_if_full, hbs]
    split_ifs with hfull
    · refine ⟨fun _ => hfull, fun _ => ?_⟩
      cases hh : (b.touch_contact c).1.contacts with
      | nil => rw [hh] at hfull; simp at hfull
      | cons y ys =>
        exact ⟨y, rfl, rfl, List.mem_cons_self y ys⟩
    · constructor
      · rintro ⟨x, hx, _⟩
        simp at hx
      · intro hcon
        exact absurd hcon hfull
  · rw [RoutingTable.touch_contact_pos ht]

theorem touch_eviction_signal_witness :
    ((∃ x, ((⟨[⟨4, 0⟩], 1⟩ : Bucket).touch_contact ⟨5, 1⟩).2 = some x ∧
        ((⟨[⟨4, 0⟩], 1⟩ : Bucket).touch_contact ⟨5, 1⟩).1.contacts.head? = some x ∧
        x ∈ ((⟨[⟨4, 0⟩], 1⟩ : Bucket).touch_contact ⟨5, 1⟩).1.contacts) ↔
      (⟨[⟨4, 0⟩], 1⟩ : Bucket).bucket_size <
        ((⟨[⟨4, 0⟩], 1⟩ : Bucket).touch_contact ⟨5, 1⟩).1.contacts.length) ∧
    ((RoutingTable.new 0 1).touch_contact ⟨5, 1⟩).2 =
      (((getBucket? (log2_distance 5 (RoutingTable.new 0 1).local_id)
          (RoutingTable.new 0 1).buckets).getD
        (Bucket.new (RoutingTable.new 0 1).bucket_size)).touch_contact ⟨5, 1⟩).2 :=
  touch_eviction_signal ⟨[⟨4, 0⟩], 1⟩ ⟨5, 1⟩ (RoutingTable.new 0 1) (by decide)

theorem RoutingTable.contains_pos {t : RoutingTable} {c : Contact} {b : Bucket}
    (h : log2_distance c.id t.local_id ≠ 0)
    (hg : getBucket? (log2_distance c.id t.local_id) t.buckets = some b) :
    t.contains c = b.contains c := by
  simp only [RoutingTable.contains]
  rw [if_neg h, hg]

theorem RoutingTable.conflicts_pos {t : RoutingTable} {c : Contact} {b : Bucket}
    (h : log2_distance c.id t.local_id ≠ 0)
    (hg : getBucket? (log2_distance c.id t.local_id) t.buckets = some b) :
    t.conflicts c = b.conflicts c := by
  simp only [RoutingTable.conflicts]
  rw [if_neg h, hg]

theorem Bucket.contains_iff {b : Bucket} {c : Contact} :
    b.contains c = true ↔ c ∈ b.contacts := by
  simp [Bucket.contains]

/-- C9: touching the same contact twice with no intervening removal leaves
`len()` unchanged relative to the state after the first touch, and when the
contact was inserted it occupies the most-recently-seen (back) position of its
bucket after the second touch. (The second touch in fact leaves the whole
table unchanged.) -/
theorem touch_twice_len_and_back (t : RoutingTable) (c : Contact)
    (hr : Reachable t) :
    ((t.touch_contact c).1.touch_contact c).1.len = (t.touch_contact c).1.len ∧
      ((t.touch_contact c).1.contains c = true →
        ((getBucket? (log2_distance c.id t.local_id)
            ((t.touch_contact c).1.touch_contact c).1.buckets).getD
          (Bucket.new t.bucket_size)).contacts.getLast? = some c) := by
  refine ⟨by rw [touch_contact_idem], ?_⟩
  rw [touch_contact_idem]
  intro hcont
  by_cases hz : log2_distance c.id t.local_id = 0
  · have h1 : (t.touch_contact c).1 = t := by rw [RoutingTable.touch_contact_zero hz]
    rw [h1] at hcont
    simp only [RoutingTable.contains] at hcont
    rw [if_pos hz] at hcont
    exact absurd hcont (by simp)
  · have hl : (t.touch_contact c).1.local_id = t.local_id := by
      rw [RoutingTable.touch_contact_pos hz]
    have hbk : (t.touch_contact c).1.buckets =
        insertAssoc (log2_distance c.id t.local_id)
          (((getBucket? (log2_distance c.id t.local_id) t.buckets).getD
            (Bucket.new t.bucket_size)).touch_contact c).1 t.buckets := by
      rw [RoutingTable.touch_contact_pos hz]
    have hget : getBucket? (log2_distance c.id t.local_id)
        (t.touch_contact c).1.buckets =
        some (((getBucket? (log2_distance c.id t.local_id) t.buckets).getD
          (Bucket.new t.bucket_size)).touch_contact c).1 := by
      rw [hbk]
      exact getBucket?_insertAssoc_self _ _ _
    have hz' : log2_distance c.id (t.touch_contact c).1.local_id ≠ 0 := by
      rw [hl]
      exact hz
    rw [RoutingTable.contains_pos hz' (by rw [hl]; exact hget)] at hcont
    have hcmem := Bucket.contains_iff.mp hcont
    rw [hget]
    simp only [Option.getD_some]
    rw [touch_fst_contacts] at hcmem ⊢
    split_ifs at hcmem ⊢ with hconf
    · exact absurd (List.mem_filter.mp hcmem).2 (by simp)
    · simp

theorem touch_twice_len_and_back_witness :
    ((exTable.touch_contact ⟨1, 0⟩).1.touch_contact ⟨1, 0⟩).1.len =
        (exTable.touch_contact ⟨1, 0⟩).1.len ∧
      ((exTable.touch_contact ⟨1, 0⟩).1.contains ⟨1, 0⟩ = true →
        ((getBucket? (log2_distance 1 exTable.local_id)
            ((exTable.touch_contact ⟨1, 0⟩).1.touch_contact ⟨1, 0⟩).1.buckets).getD
          (Bucket.new exTable.bucket_size)).contacts.getLast? = some ⟨1, 0⟩) :=
  touch_twice_len_and_back exTable ⟨1, 0⟩
    (Reachable.touch _ _ (Reachable.touch _ _ (Reachable.touch _ _ (Reachable.new 0 2))))

/-- C3 (amended): a bucket's size is not bounded by `bucket_size + 1` across
reachable tables — the table never evicts on its own, so repeated touches of
distinct identifiers grow a bucket arbitrarily. What does hold is the local
bound the counterexample leaves intact: a single `touch` grows any bucket by
at most one contact. -/
theorem touch_bucket_growth_le_one (t : RoutingTable) (c : Contact) (i : Nat)
    (hr : Reachable t) :
    ((getBucket? i (t.touch_contact c).1.buckets).getD
      (Bucket.new t.bucket_size)).contacts.length ≤
      ((getBucket? i t.buckets).getD (Bucket.new t.bucket_size)).contacts.length + 1 := by
  by_cases hz : log2_distance c.id t.local_id = 0
  · rw [RoutingTable.touch_contact_zero hz]
    exact Nat.le_succ_of_le (Nat.le_refl _)
  · rw [RoutingTable.touch_contact_pos hz]
    by_cases hi : i = log2_distance c.id t.local_id
    · rw [hi]
      rw [getBucket?_insertAssoc_self]
      simp only [Option.getD_some]
      exact touch_contacts_length_le _ _
    · show ((getBucket? i (insertAssoc (log2_distance c.id t.local_id) _ t.buckets)).getD
          _).contacts.length ≤ _
      rw [getBucket?_insertAssoc_ne hi]
      exact Nat.le_succ_of_le (Nat.le_refl _)

theorem touch_bucket_growth_le_one_witness :
    ((getBucket? 3 (exTwo.touch_contact ⟨6, 0⟩).1.buckets).getD
      (Bucket.new exTwo.bucket_size)).contacts.length ≤
      ((getBucket? 3 exTwo.buckets).getD
        (Bucket.new exTwo.bucket_size)).contacts.length + 1 :=
  touch_bucket_growth_le_one exTwo ⟨6, 0⟩ 3
    (Reachable.touch _ _ (Reachable.touch _ _ (Reachable.new 0 1)))

/-- C3 is false as stated: `exOverfull` is reachable from
`new(0, bucket_size := 1)` by touching the three distinct contacts 4, 5, 6
(all of distance class 3), and its distance-3 bucket then holds 3 contacts,
strictly more than `bucket_size + 1 = 2`. -/
theorem bucket_capacity_counterexample :
    Reachable exOverfull ∧
      ∃ p ∈ exOverfull.buckets, exOverfull.bucket_size + 1 < p.2.contacts.length := by
  constructor
  · exact Reachable.touch _ _ (Reachable.touch _ _ (Reachable.touch _ _ (Reachable.new 0 1)))
  · decide

/-- C10: a non-`None` return from `touch` does not imply the touched contact
was inserted. `exTwo` is reachable, the contact (id 4, addr 2) is
conflict-rejected (id 4 is bound to addr 0), the table is unchanged by the
call, and yet `touch` returns the bucket's front member because the bucket
holds more than `bucket_size` contacts. -/
theorem touch_some_without_insertion :
    Reachable exTwo ∧ exTwo.conflicts ⟨4, 2⟩ = true ∧
      (exTwo.touch_contact ⟨4, 2⟩).1 = exTwo ∧
      (exTwo.touch_contact ⟨4, 2⟩).2 = some ⟨4, 0⟩ ∧
      exTwo.bucket_size <
        ((getBucket? (log2_distance 4 exTwo.local_id) exTwo.buckets).getD
          (Bucket.new exTwo.bucket_size)).contacts.length := by
  refine ⟨Reachable.touch _ _ (Reachable.touch _ _ (Reachable.new 0 1)), ?_⟩
  decide

/-- C4: the result of `get_closest_contacts(target, limit)` is sorted in
strictly ascending (distance to target, contact) order — ascending XOR
distance with ties broken by the fixed total order on contacts. In this pure
model the query is a function of the table, so repeated queries against an
unchanged table return the same list definitionally. -/
theorem closest_contacts_sorted (t : RoutingTable) (target limit : Nat)
    (hr : Reachable t) :
    (t.get_closest_contacts target limit).Pairwise
      (fun c1 c2 => cwdLt (mkCWD target c1) (mkCWD target c2)) := by
  have hsorted : SortedLt (t.get_contacts_in_distance_order target) :=
    sortedLt_foldl_step _ _ _ List.Pairwise.nil
  have hshape : ∀ z ∈ t.get_contacts_in_distance_order target,
      mkCWD target z.contact = z := by
    intro z hz
    rcases mem_foldl_step _ _ _ _ hz with h' | h'
    · simp at h'
    · simp only [scanItems, List.mem_flatten, List.mem_map] at h'
      obtain ⟨lb, ⟨p, hp, rfl⟩, hzlb⟩ := h'
      simp only [bucketItems, List.mem_map] at hzlb
      obtain ⟨c0, hc0, rfl⟩ := hzlb
      rfl
  simp only [RoutingTable.get_closest_contacts]
  rw [List.pairwise_map]
  have htake : ((t.get_contacts_in_distance_order target).take
      (min limit t.bucket_size)).Pairwise cwdLt :=
    List.Pairwise.sublist (List.take_sublist _ _) hsorted
  refine List.Pairwise.imp_of_mem ?_ htake
  intro a b ha hb hab
  have ha' := hshape a (List.take_subset _ _ ha)
  have hb' := hshape b (List.take_subset _ _ hb)
  rw [ha', hb']
  exact hab

theorem closest_contacts_sorted_witness :
    (exTable.get_closest_contacts 4 5).Pairwise
      (fun c1 c2 => cwdLt (mkCWD 4 c1) (mkCWD 4 c2)) :=
  closest_contacts_sorted exTable 4 5
    (Reachable.touch _ _ (Reachable.touch _ _ (Reachable.touch _ _ (Reachable.new 0 2))))

/-- C5: the query result never contains a contact whose identifier equals the
target, and no reachable table contains a contact whose identifier equals the
local identifier — so the local node appears in no bucket and in no query
result. -/
theorem closest_contacts_excludes_target_and_self (t : RoutingTable)
    (target limit : Nat) (hr : Reachable t) :
    (∀ c ∈ t.get_closest_contacts target limit, c.id ≠ target ∧ c.id ≠ t.local_id) ∧
      ∀ p ∈ t.buckets, ∀ c ∈ p.2.contacts, c.id ≠ t.local_id := by
  have hinv := reachable_tableInv hr
  have hbuck : ∀ p ∈ t.buckets, ∀ c ∈ p.2.contacts, c.id ≠ t.local_id := by
    intro p hp c hc hcid
    have hok := hinv.2 p hp
    have hd := hok.2.1 c hc
    rw [hcid, log2_distance_self] at hd
    exact hok.1 hd.symm
  refine ⟨?_, hbuck⟩
  intro c hc
  simp only [RoutingTable.get_closest_contacts, List.mem_map] at hc
  obtain ⟨z, hz, rfl⟩ := hc
  have hz2 : z ∈ t.get_contacts_in_distance_order target :=
    List.take_subset _ _ hz
  have hz3 : z ∈ scanItems t target := by
    rcases mem_foldl_step _ _ _ _ hz2 with h' | h'
    · simp at h'
    · exact h'
  simp only [scanItems, List.mem_flatten, List.mem_map] at hz3
  obtain ⟨lb, ⟨p, hp, rfl⟩, hzlb⟩ := hz3
  simp only [bucketItems, List.mem_map] at hzlb
  obtain ⟨c0, hc0, rfl⟩ := hzlb
  have hc0f := List.mem_filter.mp hc0
  constructor
  · have hne := hc0f.2
    simpa [mkCWD] using hne
  · have hc0mem : c0 ∈ p.2.contacts := List.take_subset _ _ hc0f.1
    exact hbuck p hp c0 hc0mem

theorem closest_contacts_excludes_target_and_self_witness :
    (∀ c ∈ exTable.get_closest_contacts 3 5, c.id ≠ 3 ∧ c.id ≠ exTable.local_id) ∧
      ∀ p ∈ exTable.buckets, ∀ c ∈ p.2.contacts, c.id ≠ exTable.local_id :=
  closest_contacts_excludes_target_and_self exTable 3 5
    (Reachable.touch _ _ (Reachable.touch _ _ (Reachable.touch _ _ (Reachable.new 0 2))))

/-- C6: touching a contact whose identifier is already present in the table
under a different address leaves the table completely unchanged (the existing
entry stays, the new contact is not inserted); `conflicts` is true before the
touch and `contains` of the new contact is false after it. -/
theorem touch_conflict_rejection (t : RoutingTable) (c c' : Contact)
    (hr : Reachable t) (hmem : ∃ p ∈ t.buckets, c' ∈ p.2.contacts)
    (hid : c'.id = c.id) (haddr : c'.addr ≠ c.addr) :
    t.conflicts c = true ∧ (t.touch_contact c).1 = t ∧
      (t.touch_contact c).1.contains c = false := by
  have hinv := reachable_tableInv hr
  obtain ⟨p, hp, hcp⟩ := hmem
  have hok := hinv.2 p hp
  have hidx : log2_distance c.id t.local_id = p.1 := by
    rw [← hid]
    exact hok.2.1 c' hcp
  have hz : log2_distance c.id t.local_id ≠ 0 := by
    rw [hidx]
    exact hok.1
  have hget : getBucket? (log2_distance c.id t.local_id) t.buckets = some p.2 := by
    rw [hidx]
    exact getBucket?_of_mem hinv.1 hp
  have hbconf : p.2.conflicts c = true := conflicts_iff.mpr ⟨c', hcp, hid, haddr⟩
  have hcnot : c ∉ p.2.contacts := by
    intro hcm
    have heq : c = c' :=
      List.inj_on_of_nodup_map hok.2.2 hcm hcp (by rw [hid])
    exact haddr (congrArg Contact.addr heq).symm
  have hB : (p.2.touch_contact c).1 = p.2 := by
    refine Bucket.ext' ?_ (touch_fst_bucket_size _ _)
    rw [touch_fst_contacts, filter_ne_eq_of_not_mem hcnot]
    rw [if_pos (show p.2.contacts.any
      (fun old => old.id == c.id && old.addr != c.addr) = true from hbconf)]
  have htab : (t.touch_contact c).1 = t := by
    rw [RoutingTable.touch_contact_pos hz, hget]
    simp only [Option.getD_some]
    rw [hB, insertAssoc_of_getBucket? hget]
  refine ⟨?_, htab, ?_⟩
  · rw [RoutingTable.conflicts_pos hz hget]
    exact hbconf
  · rw [htab, RoutingTable.contains_pos hz hget]
    exact Bool.eq_false_iff.mpr fun h => hcnot (Bucket.contains_iff.mp h)

theorem touch_conflict_rejection_witness :
    exTwo.conflicts ⟨4, 2⟩ = true ∧ (exTwo.touch_contact ⟨4, 2⟩).1 = exTwo ∧
      (exTwo.touch_contact ⟨4, 2⟩).1.contains ⟨4, 2⟩ = false :=
  touch_conflict_rejection exTwo ⟨4, 2⟩ ⟨4, 0⟩
    (Reachable.touch _ _ (Reachable.touch _ _ (Reachable.new 0 1)))
    (by decide) (by decide) (by decide)

/-- C2: `get_closest_contacts(target, limit)` returns exactly the first
`min(limit, bucket_size)` elements of the naive candidate list (the first
`bucket_size` members of every bucket, minus contacts whose identifier equals
the target, sorted by (XOR distance to target, contact)): the max-distance
pruning in `get_contacts_in_distance_order` never changes the truncated
result, and the result is independent of the order in which the hash map's
buckets are scanned. -/
theorem closest_contacts_eq_naive (t t' : RoutingTable) (target limit : Nat)
    (hr : Reachable t) (hbs : t'.bucket_size = t.bucket_size)
    (hperm : List.Perm t'.buckets t.buckets) :
    t.get_closest_contacts target limit = naiveClosestContacts t target limit ∧
      t'.get_closest_contacts target limit = t.get_closest_contacts target limit := by
  have main : ∀ s : RoutingTable,
      s.get_closest_contacts target limit = naiveClosestContacts s target limit := by
    intro s
    simp only [RoutingTable.get_closest_contacts, naiveClosestContacts,
      RoutingTable.get_contacts_in_distance_order]
    rw [pruned_take_eq_naive s.bucket_size (scanItems s target)
      (Nat.min_le_right limit s.bucket_size)]
  refine ⟨main t, ?_⟩
  rw [main t', main t]
  simp only [naiveClosestContacts]
  have hscan : List.Perm (scanItems t' target) (scanItems t target) := by
    simp only [scanItems]
    rw [hbs]
    exact perm_flatten_of_perm (List.Perm.map _ hperm)
  rw [sortedInsertAll_perm hscan, hbs]

theorem closest_contacts_eq_naive_witness :
    (exTable.get_closest_contacts 4 5 = naiveClosestContacts exTable 4 5 ∧
      exTableSwapped.get_closest_contacts 4 5 = exTable.get_closest_contacts 4 5) :=
  closest_contacts_eq_naive exTable exTableSwapped 4 5
    (Reachable.touch _ _ (Reachable.touch _ _ (Reachable.touch _ _ (Reachable.new 0 2))))
    (by decide) (by decide)
